import Mathlib

/-
Shallow embedding of the LeverageApp market-data pipeline
(src/lib/marketData.ts, FMP variant, and the leverage-score logic of
src/app/page.tsx) together with proofs of the spec's testable properties.

Modelling conventions:
* A `YYYY-MM-DD` date string is modelled as a `Date` triple of integers.
  Lexicographic comparison of the triples agrees with
  `String.localeCompare` on fixed-width `YYYY-MM-DD` strings.
* JavaScript numbers are modelled as exact rationals `ℚ`; the one place
  where the source can produce `NaN` (the unguarded first RSI value) is
  modelled with `Option ℚ`, `none` standing for `NaN`.
* `new Date(s)` / `getDay()` / `getFullYear()` are modelled at UTC
  (timezone offset 0), where `new Date("YYYY-MM-DD")` denotes midnight of
  that calendar day and the accessors return its components.
* `Array.prototype.sort` (stable since ES2019) is modelled by a stable
  insertion sort; a JavaScript `Map` is modelled by an association list
  whose `set` replaces in place, preserving insertion order.
-/

namespace LeverageApp

/-- A calendar day, standing for a `YYYY-MM-DD` date string. -/
structure Date where
  y : Int
  m : Int
  d : Int
deriving DecidableEq, Repr

/-- Lexicographic `≤` on dates: the order `localeCompare` induces on
`YYYY-MM-DD` strings. -/
def dLe (a b : Date) : Prop :=
  a.y < b.y ∨ (a.y = b.y ∧ (a.m < b.m ∨ (a.m = b.m ∧ a.d ≤ b.d)))

/-- Lexicographic `<` on dates. -/
def dLt (a b : Date) : Prop :=
  a.y < b.y ∨ (a.y = b.y ∧ (a.m < b.m ∨ (a.m = b.m ∧ a.d < b.d)))

instance : DecidableRel dLe := fun a b => by unfold dLe; infer_instance

instance : DecidableRel dLt := fun a b => by unfold dLt; infer_instance

/-- `HistoryPoint` from marketData.ts: `{ date: string; value: number }`. -/
structure HistoryPoint where
  date : Date
  value : ℚ
deriving DecidableEq, Repr

/-- The comparator `(a, b) => a.date.localeCompare(b.date)` as a `≤` relation. -/
def pointLe (p q : HistoryPoint) : Prop := dLe p.date q.date

instance : DecidableRel pointLe := fun p q => by unfold pointLe; infer_instance

section StableSort

variable {α : Type} (r : α → α → Prop) [DecidableRel r]

/-- Insert `x` into a sorted list, in front of the first element `y` with
`r x y`; equal elements that arrived earlier stay in front, matching the
stability of `Array.prototype.sort`. -/
def insertSorted (x : α) : List α → List α
  | [] => [x]
  | y :: ys => if r x y then x :: y :: ys else y :: insertSorted x ys

/-- Stable sort by the relation `r`, modelling `Array.prototype.sort`
with an `r`-comparator. -/
def sortBy : List α → List α
  | [] => []
  | x :: xs => insertSorted r x (sortBy xs)

end StableSort

section BucketMap

variable {κ : Type} [DecidableEq κ] {α : Type}

/-- `Map.set` of a JavaScript `Map`, on an insertion-ordered association
list: an existing key is updated in place, a fresh key is appended. -/
def mapUpd (k : κ) (p : α) : List (κ × α) → List (κ × α)
  | [] => [(k, p)]
  | e :: rest => if e.1 = k then (k, p) :: rest else e :: mapUpd k p rest

/-- The JavaScript `Map` built by `l.forEach(p => map.set(key(p), p))`. -/
def buildMap (key : α → κ) (l : List α) : List (κ × α) :=
  l.foldl (fun m p => mapUpd (key p) p m) []

end BucketMap


/-
Calendar arithmetic modelling the JavaScript `Date` object at UTC.
`daysFromCivil`/`civilFromDays` are the standard proleptic-Gregorian
conversions between a calendar date and a day number with epoch
1970-01-01 = day 0 (i.e. `getTime() / 86400000` of a UTC midnight).
-/

/-- Day number (days since 1970-01-01) of a calendar date. -/
def daysFromCivil (dt : Date) : Int :=
  let y := if dt.m ≤ 2 then dt.y - 1 else dt.y
  let era := Int.fdiv y 400
  let yoe := y - era * 400
  let mp := if dt.m ≤ 2 then dt.m + 9 else dt.m - 3
  let doy := Int.fdiv (153 * mp + 2) 5 + dt.d - 1
  let doe := yoe * 365 + Int.fdiv yoe 4 - Int.fdiv yoe 100 + doy
  era * 146097 + doe - 719468

/-- Calendar date of a day number (inverse of `daysFromCivil`). -/
def civilFromDays (z0 : Int) : Date :=
  let z := z0 + 719468
  let era := Int.fdiv z 146097
  let doe := z - era * 146097
  let yoe :=
    Int.fdiv (doe - Int.fdiv doe 1460 + Int.fdiv doe 36524 - Int.fdiv doe 146096) 365
  let y := yoe + era * 400
  let doy := doe - (365 * yoe + Int.fdiv yoe 4 - Int.fdiv yoe 100)
  let mp := Int.fdiv (5 * doy + 2) 153
  let d := doy - Int.fdiv (153 * mp + 2) 5 + 1
  let m := if mp < 10 then mp + 3 else mp - 9
  ⟨if m ≤ 2 then y + 1 else y, m, d⟩

/-- JavaScript `Date.prototype.getDay` at UTC: 0 = Sunday … 6 = Saturday;
1970-01-01 (day 0) was a Thursday. -/
def dayOfWeek (dn : Int) : Int := (dn + 4) % 7

/-- JavaScript `Math.round`: round half toward positive infinity. -/
def jsRound (x : ℚ) : Int := ⌊x + 1 / 2⌋

/-- The bucket key of `resampleToWeekly` in marketData.ts: the template
string `${d.getFullYear()}-W${weekNum}` represented as the pair
(calendar year, week number), on which the string rendering is injective.
`weekNum` follows the source's `getWeek` helper: move to the Thursday of
the date's Monday-based week, then count weeks from January 4 of the
*Thursday's* year — while the pair's first component is the calendar
year of the original date, not the ISO week-year. -/
def jsWeekKey (dt : Date) : Int × Int :=
  let dn := daysFromCivil dt
  let thursday := dn + 3 - (dayOfWeek dn + 6) % 7
  let ty := (civilFromDays thursday).y
  let week1 := daysFromCivil ⟨ty, 1, 4⟩
  let weekNum :=
    1 + jsRound ((((thursday - week1 : Int) : ℚ) - 3 +
      (((dayOfWeek week1 + 6) % 7 : Int) : ℚ)) / 7)
  (dt.y, weekNum)

/-- The bucket key of `resampleToMonthly`: `date.substring(0, 7)`
(`"YYYY-MM"`), represented as the pair (year, month). -/
def monthKey (dt : Date) : Int × Int := (dt.y, dt.m)

/-- Modelled from the spec: the ISO-8601 week identifier (ISO week-year
and ISO week number, via the first-Thursday rule) that the spec claims
`resampleToWeekly` buckets by. Stated from the spec's words for
comparison with the source's `jsWeekKey`. -/
def isoWeekKey (dt : Date) : Int × Int :=
  let dn := daysFromCivil dt
  let thursday := dn + 3 - (dayOfWeek dn + 6) % 7
  let wy := (civilFromDays thursday).y
  let jan4 := daysFromCivil ⟨wy, 1, 4⟩
  let firstThursday := jan4 + 3 - (dayOfWeek jan4 + 6) % 7
  (wy, 1 + Int.fdiv (thursday - firstThursday) 7)

/-- `jsWeekKey` with the rounded rational week arithmetic folded into
integer floor division; proved equal in `jsWeekKey_eq_int` and used to
evaluate concrete weeks. -/
def jsWeekKeyInt (dt : Date) : Int × Int :=
  let dn := daysFromCivil dt
  let thursday := dn + 3 - (dayOfWeek dn + 6) % 7
  let ty := (civilFromDays thursday).y
  let week1 := daysFromCivil ⟨ty, 1, 4⟩
  (dt.y, 1 + (2 * (thursday - week1 - 3 + (dayOfWeek week1 + 6) % 7) + 7) / 14)

/-- Shared shape of both resamplers: fill a JavaScript `Map` keyed by
`key` (last write per key wins), then `Array.from(map.values()).sort` by
date. -/
def lastOfBuckets {κ : Type} [DecidableEq κ] (key : HistoryPoint → κ)
    (daily : List HistoryPoint) : List HistoryPoint :=
  sortBy pointLe ((buildMap key daily).map Prod.snd)

/-- `resampleToWeekly` of marketData.ts (lines 426-445). -/
def resampleToWeekly (daily : List HistoryPoint) : List HistoryPoint :=
  lastOfBuckets (fun p => jsWeekKey p.date) daily

/-- `resampleToMonthly` of marketData.ts (lines 448-455). -/
def resampleToMonthly (daily : List HistoryPoint) : List HistoryPoint :=
  lastOfBuckets (fun p => monthKey p.date) daily
/-- Raw FMP history row: `{ date: "YYYY-MM-DD", close: number, ... }`. -/
structure RawItem where
  date : Date
  close : ℚ
deriving DecidableEq, Repr

/-- `parseFMPHistory` of marketData.ts (lines 414-423): `none` stands for
a null payload or one without a `historical` field; otherwise map each
row to `{date, value: close}` and sort ascending by
`date.localeCompare`. -/
def parseFMPHistory : Option (List RawItem) → List HistoryPoint
  | none => []
  | some hist => sortBy pointLe (hist.map (fun it => (⟨it.date, it.close⟩ : HistoryPoint)))

/-- Out-of-range index accesses (unreachable for the periods the theorems
quantify over) return this placeholder, where the JavaScript source would
fault on `undefined`. -/
def defaultPoint : HistoryPoint := ⟨⟨0, 0, 0⟩, 0⟩

/-- `data[i].value`. -/
def valAt (data : List HistoryPoint) (i : ℕ) : ℚ := (data.getD i defaultPoint).value

/-- `data[i].date`. -/
def dateAt (data : List HistoryPoint) (i : ℕ) : Date := (data.getD i defaultPoint).date

/-- The `for (let i = period; ...)` loop of `calculateEMA`:
`ema = (data[i].value - ema) * k + ema`, one output point per input
point, carrying the running EMA. -/
def emaLoop (k prev : ℚ) : List HistoryPoint → List HistoryPoint
  | [] => []
  | p :: ps =>
    let e := (p.value - prev) * k + prev
    ⟨p.date, e⟩ :: emaLoop k e ps

/-- `calculateEMA` of marketData.ts (lines 576-593): SMA seed over the
first `period` values emitted at index `period - 1`, then the smoothing
recurrence with `k = 2 / (period + 1)`. -/
def calculateEMA (data : List HistoryPoint) (period : ℕ) : List HistoryPoint :=
  if data.length = 0 then []
  else if data.length < period then []
  else
    let k : ℚ := 2 / ((period : ℚ) + 1)
    let seed : ℚ := ((data.take period).map HistoryPoint.value).sum / (period : ℚ)
    ⟨dateAt data (period - 1), seed⟩ :: emaLoop k seed (data.drop period)

/-- `calculateSMA` of marketData.ts (lines 635-644): trailing mean of the
`period` values ending at each index from `period - 1` on. -/
def calculateSMA (data : List HistoryPoint) (period : ℕ) : List HistoryPoint :=
  if data.length < period then []
  else
    (List.range' (period - 1) (data.length - (period - 1))).map
      (fun i => ⟨dateAt data i,
        ((List.range period).map (fun j => valAt data (i - j))).sum / (period : ℚ)⟩)

/-- An RSI output point; `value = none` stands for IEEE `NaN`. -/
structure RsiPoint where
  date : Date
  value : Option ℚ
deriving DecidableEq, Repr

/-- IEEE-754 evaluation of the *unguarded* first-RSI expression
`100 - (100 / (1 + avgGain / avgLoss))` of calculateRSI, for the
reachable inputs `avgGain, avgLoss ≥ 0`: with `avgLoss = 0` and
`avgGain ≠ 0` the inner division is `±Infinity` and the whole expression
collapses to exactly 100; with `avgGain = avgLoss = 0` it is `0/0 = NaN`
(`none`). -/
def firstRsi (avgGain avgLoss : ℚ) : Option ℚ :=
  if avgLoss = 0 then (if avgGain = 0 then none else some 100)
  else some (100 - 100 / (1 + avgGain / avgLoss))

/-- The `for (let i = period + 1; ...)` loop of `calculateRSI`, carrying
`avgGain`, `avgLoss` and the previous day's value; this loop *does* guard
`avgLoss === 0` with `rsi = 100`. -/
def rsiLoop (period : ℕ) (avgGain avgLoss prevVal : ℚ) :
    List HistoryPoint → List RsiPoint
  | [] => []
  | p :: ps =>
    let diff := p.value - prevVal
    let gain := if 0 < diff then diff else 0
    let loss := if diff < 0 then -diff else 0
    let aG := (avgGain * ((period : ℚ) - 1) + gain) / (period : ℚ)
    let aL := (avgLoss * ((period : ℚ) - 1) + loss) / (period : ℚ)
    let r : ℚ := if aL = 0 then 100 else 100 - 100 / (1 + aG / aL)
    ⟨p.date, some r⟩ :: rsiLoop period aG aL p.value ps

/-- `calculateRSI` of marketData.ts (lines 595-633): first window sums
positive deltas into `gains` and the negated non-positive deltas into
`losses` (indices 1..period); the first output value at index `period`
uses the unguarded expression (`firstRsi`); subsequent values use the
guarded Wilder smoothing loop (`rsiLoop`). -/
def calculateRSI (data : List HistoryPoint) (period : ℕ) : List RsiPoint :=
  if data.length < period + 1 then []
  else
    let gains := ((List.range period).map (fun i =>
      let diff := valAt data (i + 1) - valAt data i
      if 0 < diff then diff else 0)).sum
    let losses := ((List.range period).map (fun i =>
      let diff := valAt data (i + 1) - valAt data i
      if 0 < diff then 0 else -diff)).sum
    let avgGain := gains / (period : ℚ)
    let avgLoss := losses / (period : ℚ)
    ⟨dateAt data period, firstRsi avgGain avgLoss⟩ ::
      rsiLoop period avgGain avgLoss (valAt data period) (data.drop (period + 1))


/-
The assembled dataset and the aggregator `getMarketHistory`
(marketData.ts lines 457-572), as a pure function of its environment:
the parsed cache entry (`none` = absent or unparsable), the parsed JSON
each `fetchFMP` call would return (`none` = null: missing key, error
payload, transport failure), the current wall clock `now`
(`Date.now()`), and today's date. It returns the value handed to the
caller together with the cache entry stored afterwards.
-/

/-- The `MarketHistory` record of marketData.ts. -/
structure MarketHistory where
  spyDaily : List HistoryPoint
  spyWeekly : List HistoryPoint
  spyMonthly : List HistoryPoint
  vixDaily : List HistoryPoint
  breadth : List HistoryPoint
  peRatio : ℚ
  lastUpdated : Date
  isMock : Bool
deriving DecidableEq, Repr

/-- A row of an FMP `/quote` response; `pe = 0` models a missing or null
(JavaScript-falsy) `pe` field. -/
structure PriceQuote where
  price : ℚ
  pe : ℚ
deriving DecidableEq, Repr

/-- A row of an FMP `analyst-estimates` response; `0` models a missing
(falsy) field. -/
structure EstimateRow where
  estimatedEarningsAvg : ℚ
  estimatedEpsAvg : ℚ
deriving DecidableEq, Repr

/-- The cached `{ timestamp, data }` wrapper. -/
structure CacheEntry where
  timestamp : Int
  data : MarketHistory
deriving DecidableEq, Repr

/-- Environment of one `getMarketHistory` run. -/
structure FmpEnv where
  hasApiKey : Bool
  spyFull : Option (List RawItem)
  vixQuote : Option (List PriceQuote)
  vixFull : Option (List RawItem)
  spyQuote : Option (List PriceQuote)
  estimates : Option (List EstimateRow)
  rspFull : Option (List RawItem)
  today : Date
  now : Int
  cache : Option CacheEntry
deriving Repr

/-- `CACHE_DURATION_MS = 60 * 60 * 1000`. -/
def cacheDurationMs : Int := 60 * 60 * 1000

/-- `arr[arr.length - 1]` on a list known to be nonempty. -/
def lastPoint (l : List HistoryPoint) : HistoryPoint := l.getLastD defaultPoint

/-- The cache check at the top of `getMarketHistory`: a parsed entry is
served only if it is fresh and its `spyDaily` is a nonempty array;
otherwise control falls through to the fetch path. -/
def cacheLookup (env : FmpEnv) : Option MarketHistory :=
  match env.cache with
  | some c =>
    if env.now - c.timestamp < cacheDurationMs ∧ c.data.spyDaily ≠ [] then
      some c.data
    else none
  | none => none

/-- `getMarketHistory` of marketData.ts (lines 457-572). Returns the
result given to the caller and the cache entry in storage afterwards
(the final `localStorage.setItem` is modelled as succeeding). -/
def getMarketHistory (env : FmpEnv) : Option MarketHistory × Option CacheEntry :=
  match cacheLookup env with
  | some d => (some d, env.cache)
  | none =>
    if env.hasApiKey = false then (none, env.cache)
    else
      let spyDaily := parseFMPHistory env.spyFull
      if spyDaily = [] then (none, env.cache)
      else
        let vixValue : ℚ :=
          match env.vixQuote with
          | some (q :: _) => q.price
          | _ => 15
        let vixHist := parseFMPHistory env.vixFull
        let vixDaily :=
          if vixHist = [] then [(⟨env.today, vixValue⟩ : HistoryPoint)] else vixHist
        let currentPrice : ℚ :=
          match env.spyQuote with
          | some (q :: _) => q.price
          | _ => (lastPoint spyDaily).value
        let peR : ℚ :=
          match env.estimates with
          | some (e :: _) =>
            currentPrice /
              (if e.estimatedEarningsAvg ≠ 0 then e.estimatedEarningsAvg
               else if e.estimatedEpsAvg ≠ 0 then e.estimatedEpsAvg
               else 1)
          | _ =>
            match env.spyQuote with
            | some (q :: _) => if q.pe ≠ 0 then q.pe else 23.1
            | _ => 23.1
        let breadthProxy := parseFMPHistory env.rspFull
        let result : MarketHistory :=
          ⟨spyDaily, resampleToWeekly spyDaily, resampleToMonthly spyDaily,
            vixDaily, breadthProxy, peR, (lastPoint spyDaily).date, false⟩
        (some result, some ⟨env.now, result⟩)

/-
The leverage-score logic of src/app/page.tsx (lines 35-121): latest
indicator extraction, raw-score rules, clamp, and the valuation safety
override.
-/

/-- `getLast = (arr) => arr && arr.length > 0 ? arr[arr.length-1].value : 0`. -/
def getLastVal (arr : List HistoryPoint) : ℚ :=
  match arr.getLast? with
  | some p => p.value
  | none => 0

/-- `getLast` applied to an RSI series, whose last value may be `NaN`
(`none`); the empty-array default is the number 0. -/
def getLastRsi (arr : List RsiPoint) : Option ℚ :=
  match arr.getLast? with
  | some p => p.value
  | none => some 0

/-- The `% above indicator` chart series of page.tsx: for each point,
look up the indicator at the same date and emit
`((value / indicator) - 1) * 100`; a missing *or zero* indicator value is
falsy (`!ema`) and yields 0. -/
def diffVsIndicator (series indicator : List HistoryPoint) : List HistoryPoint :=
  series.map fun p =>
    match indicator.find? (fun e => e.date == p.date) with
    | some e =>
      if e.value = 0 then (⟨p.date, 0⟩ : HistoryPoint)
      else ⟨p.date, (p.value / e.value - 1) * 100⟩
    | none => ⟨p.date, 0⟩

/-- JavaScript `x < c` where `x` may be `NaN` (`none`): `NaN` compares
false. -/
def jsLtB (x : Option ℚ) (c : ℚ) : Bool :=
  match x with
  | some v => decide (v < c)
  | none => false

/-- JavaScript `x > c` where `x` may be `NaN`. -/
def jsGtB (x : Option ℚ) (c : ℚ) : Bool :=
  match x with
  | some v => decide (c < v)
  | none => false

/-- The raw leverage score of page.tsx (lines 106-118): baseline 50 with
the six signal adjustments and the `[0, 100]` clamp when data is present,
0 when `data` is null. -/
def computeRawScore (hasData : Bool) (valEma50d valBreadth : ℚ)
    (valRsiDaily : Option ℚ) (valVix : ℚ) : ℚ :=
  if hasData then
    let s1 : ℚ := if 0 < valEma50d then 50 + 15 else 50
    let s2 := if 0 < valBreadth then s1 + 15 else s1
    let s3 := if jsLtB valRsiDaily 30 then s2 + 20 else s2
    let s4 := if jsGtB valRsiDaily 70 then s3 - 20 else s3
    let s5 := if valVix < 20 then s4 + 10 else s4
    let s6 := if 30 < valVix then s5 - 20 else s5
    max 0 (min 100 s6)
  else 0

/-- Lines 120-121 of page.tsx: the safety override. Returns the final
`leverageScore` and the `isSafetyWarning` flag. -/
def leverageOutcome (hasData : Bool) (valEma50d valBreadth : ℚ)
    (valRsiDaily : Option ℚ) (valVix peR : ℚ) : ℚ × Bool :=
  let raw := computeRawScore hasData valEma50d valBreadth valRsiDaily valVix
  let warn := decide (22 < peR)
  (if warn then min raw 45 else raw, warn)

/-- The dashboard's score pipeline as a function of the fetched data
(`none` = `getMarketHistory` returned null): latest-value extraction,
`peRatio` fallback (`data?.peRatio || 23.1`), score, warning flag, and
the displayed `Math.round(leverageScore)`. -/
def dashboardScore (data : Option MarketHistory) : ℚ × Bool × Int :=
  let spyDaily := match data with | some d => d.spyDaily | none => []
  let vixDaily := match data with | some d => d.vixDaily | none => []
  let breadthDaily := match data with | some d => d.breadth | none => []
  let ema50d := calculateEMA spyDaily 50
  let diffEma50d := diffVsIndicator spyDaily ema50d
  let rsiDaily := calculateRSI spyDaily 14
  let breadthSma20 := calculateSMA breadthDaily 20
  let diffBreadthSma20 := diffVsIndicator breadthDaily breadthSma20
  let valEma50d := getLastVal diffEma50d
  let valRsiDaily := getLastRsi rsiDaily
  let valBreadth := getLastVal diffBreadthSma20
  let valVix := getLastVal vixDaily
  let pe : ℚ :=
    match data with
    | some d => if d.peRatio = 0 then 23.1 else d.peRatio
    | none => 23.1
  let outcome := leverageOutcome data.isSome valEma50d valBreadth valRsiDaily valVix pe
  (outcome.1, outcome.2, jsRound outcome.1)

/-
Concrete sample inputs used in the closed evaluation theorems below.
-/

/-- Three equal closes: a flat first RSI window. -/
def sampleFlat : List HistoryPoint :=
  [⟨⟨2024, 1, 1⟩, 5⟩, ⟨⟨2024, 1, 2⟩, 5⟩, ⟨⟨2024, 1, 3⟩, 5⟩]

/-- Two trading days in different ISO weeks (2024-W01 and 2025-W01) that
the source's weekly bucket key nonetheless identifies. -/
def sampleYearPair : List HistoryPoint :=
  [⟨⟨2024, 1, 1⟩, 1⟩, ⟨⟨2024, 12, 30⟩, 2⟩]

/-- The spec's §8.8 example series. -/
def sampleDaily : List HistoryPoint :=
  [⟨⟨2024, 1, 5⟩, 10⟩, ⟨⟨2024, 1, 20⟩, 12⟩, ⟨⟨2024, 2, 3⟩, 15⟩]

/-- A constant-valued series. -/
def sampleConst : List HistoryPoint :=
  [⟨⟨2024, 1, 1⟩, 7⟩, ⟨⟨2024, 1, 2⟩, 7⟩, ⟨⟨2024, 1, 3⟩, 7⟩]

/-- An environment with an API key but every fetch failing and no usable
cache. -/
def sampleEnvNoData : FmpEnv :=
  ⟨true, none, none, none, none, none, none, ⟨2024, 1, 1⟩, 0, none⟩

/-
Lemmas and verified properties.
-/

theorem dLe_total (a b : Date) : dLe a b ∨ dLe b a := by
  unfold dLe; omega

theorem dLe_refl (a : Date) : dLe a a := by unfold dLe; omega

theorem dLe_trans {a b c : Date} (hab : dLe a b) (hbc : dLe b c) : dLe a c := by
  unfold dLe at *; omega

theorem dLt_of_dLe_of_ne {a b : Date} (h : dLe a b) (hne : a ≠ b) : dLt a b := by
  cases a with
  | mk ay am ad =>
    cases b with
    | mk byy bm bd =>
      unfold dLe at h
      unfold dLt
      have hcomp : ¬ (ay = byy ∧ am = bm ∧ ad = bd) := by
        intro hc
        exact hne (by rw [hc.1, hc.2.1, hc.2.2])
      dsimp only at h ⊢
      omega

theorem dLe_of_dLt {a b : Date} (h : dLt a b) : dLe a b := by
  unfold dLe dLt at *; omega

theorem dLt_irrefl (a : Date) : ¬ dLt a a := by unfold dLt; omega

theorem ne_of_dLt {a b : Date} (h : dLt a b) : a ≠ b := by
  rintro rfl; exact dLt_irrefl a h

theorem pointLe_total (p q : HistoryPoint) : pointLe p q ∨ pointLe q p :=
  dLe_total p.date q.date

section StableSortLemmas

variable {α : Type} (r : α → α → Prop) [DecidableRel r]

theorem insertSorted_perm (x : α) (l : List α) :
    List.Perm (insertSorted r x l) (x :: l) := by
  induction l with
  | nil => simp [insertSorted]
  | cons y ys ih =>
    by_cases h : r x y
    · simp [insertSorted, h]
    · simp only [insertSorted, if_neg h]
      exact (List.Perm.cons y ih).trans (List.Perm.swap x y ys)

theorem sortBy_perm (l : List α) : List.Perm (sortBy r l) l := by
  induction l with
  | nil => simp [sortBy]
  | cons x xs ih =>
    exact (insertSorted_perm r x (sortBy r xs)).trans (List.Perm.cons x ih)

theorem mem_sortBy {x : α} {l : List α} : x ∈ sortBy r l ↔ x ∈ l :=
  (sortBy_perm r l).mem_iff

theorem pairwise_insertSorted (htot : ∀ a b : α, r a b ∨ r b a)
    (htrans : ∀ a b c : α, r a b → r b c → r a c)
    (x : α) (l : List α) (hl : l.Pairwise r) :
    (insertSorted r x l).Pairwise r := by
  induction l with
  | nil => simp [insertSorted]
  | cons y ys ih =>
    rcases List.pairwise_cons.mp hl with ⟨hy, hys⟩
    by_cases h : r x y
    · simp only [insertSorted, if_pos h]
      refine List.pairwise_cons.mpr ⟨?_, hl⟩
      intro a ha
      rcases List.mem_cons.mp ha with rfl | ha
      · exact h
      · exact htrans x y a h (hy a ha)
    · simp only [insertSorted, if_neg h]
      refine List.pairwise_cons.mpr ⟨?_, ih hys⟩
      intro a ha
      rw [(insertSorted_perm r x ys).mem_iff] at ha
      rcases List.mem_cons.mp ha with rfl | ha
      · rcases htot y a with hya | hay
        · exact hya
        · exact absurd hay h
      · exact hy a ha

theorem pairwise_sortBy (htot : ∀ a b : α, r a b ∨ r b a)
    (htrans : ∀ a b c : α, r a b → r b c → r a c) (l : List α) :
    (sortBy r l).Pairwise r := by
  induction l with
  | nil => simp [sortBy]
  | cons x xs ih => exact pairwise_insertSorted r htot htrans x (sortBy r xs) ih

theorem insertSorted_of_le {x : α} {l : List α}
    (h : ∀ y ∈ l.head?, r x y) : insertSorted r x l = x :: l := by
  cases l with
  | nil => rfl
  | cons y ys => simp [insertSorted, h y rfl]

/-- Sorting a list that is already `r`-sorted returns it unchanged. -/
theorem sortBy_of_pairwise {l : List α} (hl : l.Pairwise r) :
    sortBy r l = l := by
  induction l with
  | nil => rfl
  | cons x xs ih =>
    rcases List.pairwise_cons.mp hl with ⟨hx, hxs⟩
    rw [sortBy, ih hxs]
    apply insertSorted_of_le
    intro y hy
    cases xs with
    | nil => simp at hy
    | cons z zs =>
      simp only [List.head?_cons, Option.mem_def, Option.some.injEq] at hy
      subst hy
      exact hx z (by simp)

end StableSortLemmas

section BucketMapLemmas

variable {κ : Type} [DecidableEq κ] {α : Type}

theorem buildMap_append (key : α → κ) (l : List α) (p : α) :
    buildMap key (l ++ [p]) = mapUpd (key p) p (buildMap key l) := by
  unfold buildMap
  rw [List.foldl_append]
  rfl

theorem fst_mapUpd_of_mem {k : κ} {p : α} {m : List (κ × α)}
    (h : k ∈ m.map Prod.fst) :
    (mapUpd k p m).map Prod.fst = m.map Prod.fst := by
  induction m with
  | nil => simp at h
  | cons e rest ih =>
    by_cases he : e.1 = k
    · simp [mapUpd, he]
    · simp only [List.map_cons, List.mem_cons] at h
      rcases h with h | h
      · exact absurd h.symm he
      · simp [mapUpd, he, ih h]

theorem mapUpd_of_not_mem {k : κ} {p : α} {m : List (κ × α)}
    (h : k ∉ m.map Prod.fst) :
    mapUpd k p m = m ++ [(k, p)] := by
  induction m with
  | nil => rfl
  | cons e rest ih =>
    simp only [List.map_cons, List.mem_cons, not_or] at h
    have hek : ¬ e.1 = k := fun hek => h.1 hek.symm
    simp [mapUpd, hek, ih h.2]

theorem nodup_fst_mapUpd {k : κ} {p : α} {m : List (κ × α)}
    (h : (m.map Prod.fst).Nodup) :
    ((mapUpd k p m).map Prod.fst).Nodup := by
  by_cases hk : k ∈ m.map Prod.fst
  · rw [fst_mapUpd_of_mem hk]; exact h
  · rw [mapUpd_of_not_mem hk]
    simp only [List.map_append, List.map_cons, List.map_nil]
    refine List.Nodup.append h (List.nodup_singleton k) ?_
    intro a ha hak
    rw [List.mem_singleton] at hak
    subst hak
    exact hk ha

theorem nodup_fst_buildMap (key : α → κ) (l : List α) :
    ((buildMap key l).map Prod.fst).Nodup := by
  induction l using List.reverseRecOn with
  | nil => simp [buildMap]
  | append_singleton l p ih =>
    rw [buildMap_append]
    exact nodup_fst_mapUpd ih

theorem mem_mapUpd {k : κ} {p : α} {m : List (κ × α)} {e : κ × α}
    (hm : (m.map Prod.fst).Nodup) (he : e ∈ mapUpd k p m) :
    e = (k, p) ∨ (e ∈ m ∧ e.1 ≠ k) := by
  induction m with
  | nil =>
    simp only [mapUpd, List.mem_singleton] at he
    exact Or.inl he
  | cons e' rest ih =>
    simp only [List.map_cons, List.nodup_cons] at hm
    by_cases he' : e'.1 = k
    · simp only [mapUpd, if_pos he', List.mem_cons] at he
      rcases he with rfl | he
      · exact Or.inl rfl
      · right
        refine ⟨List.mem_cons_of_mem e' he, ?_⟩
        intro hek
        exact hm.1 (he' ▸ hek ▸ List.mem_map_of_mem Prod.fst he)
    · simp only [mapUpd, if_neg he', List.mem_cons] at he
      rcases he with rfl | he
      · exact Or.inr ⟨List.mem_cons_self e rest, he'⟩
      · rcases ih hm.2 he with h | h
        · exact Or.inl h
        · exact Or.inr ⟨List.mem_cons_of_mem e' h.1, h.2⟩

theorem fst_mem_mapUpd {k : κ} {p : α} {m : List (κ × α)} {s : κ}
    (h : s ∈ m.map Prod.fst ∨ s = k) :
    s ∈ (mapUpd k p m).map Prod.fst := by
  by_cases hk : k ∈ m.map Prod.fst
  · rw [fst_mapUpd_of_mem hk]
    rcases h with h | rfl
    · exact h
    · exact hk
  · rw [mapUpd_of_not_mem hk]
    simp only [List.map_append, List.map_cons, List.map_nil, List.mem_append,
      List.mem_singleton]
    tauto

theorem fst_mem_buildMap (key : α → κ) {l : List α} {p : α} (hp : p ∈ l) :
    key p ∈ (buildMap key l).map Prod.fst := by
  induction l using List.reverseRecOn with
  | nil => simp at hp
  | append_singleton l q ih =>
    rw [buildMap_append]
    rcases List.mem_append.mp hp with hp | hp
    · exact fst_mem_mapUpd (Or.inl (ih hp))
    · rw [List.mem_singleton] at hp
      subst hp
      exact fst_mem_mapUpd (Or.inr rfl)

theorem mem_buildMap (key : α → κ) {l : List α} :
    ∀ e ∈ buildMap key l, key e.2 = e.1 ∧ e.2 ∈ l := by
  induction l using List.reverseRecOn with
  | nil => simp [buildMap]
  | append_singleton l p ih =>
    intro e he
    rw [buildMap_append] at he
    rcases mem_mapUpd (nodup_fst_buildMap key l) he with rfl | ⟨hmem, _⟩
    · exact ⟨rfl, by simp⟩
    · rcases ih e hmem with ⟨h1, h2⟩
      exact ⟨h1, List.mem_append_left _ h2⟩

/-- In the map built from an `R`-sorted list, every stored value is the
`R`-latest element of the list carrying its key. -/
theorem mem_buildMap_latest (key : α → κ) (R : α → α → Prop) {l : List α}
    (hs : l.Pairwise R) :
    ∀ e ∈ buildMap key l, ∀ p ∈ l, key p = e.1 → p = e.2 ∨ R p e.2 := by
  induction l using List.reverseRecOn with
  | nil => simp [buildMap]
  | append_singleton l p₀ ih =>
    rcases List.pairwise_append.mp hs with ⟨hl, _, hcross⟩
    intro e he p hp hkey
    rw [buildMap_append] at he
    rcases mem_mapUpd (nodup_fst_buildMap key l) he with rfl | ⟨hmem, hne⟩
    · rcases List.mem_append.mp hp with hp | hp
      · exact Or.inr (hcross p hp p₀ (List.mem_singleton_self p₀))
      · rw [List.mem_singleton] at hp
        subst hp
        exact Or.inl rfl
    · rcases List.mem_append.mp hp with hp | hp
      · exact ih hl e hmem p hp hkey
      · rw [List.mem_singleton] at hp
        subst hp
        exact absurd hkey.symm hne

/-- When all keys are distinct, the map is just the list of key-value pairs
in order. -/
theorem buildMap_of_nodup_keys (key : α → κ) {l : List α}
    (h : (l.map key).Nodup) :
    buildMap key l = l.map (fun p => (key p, p)) := by
  induction l using List.reverseRecOn with
  | nil => rfl
  | append_singleton l p ih =>
    rw [List.map_append] at h
    rcases List.nodup_append.mp h with ⟨h1, _, hdisj⟩
    have hnotmem : key p ∉ (l.map (fun q => (key q, q))).map Prod.fst := by
      rw [List.map_map]
      intro hk
      simp only [List.mem_map, Function.comp] at hk
      rcases hk with ⟨q, hq, hkq⟩
      exact hdisj (hkq ▸ List.mem_map_of_mem key hq) (by simp)
    rw [buildMap_append, ih h1, mapUpd_of_not_mem hnotmem]
    simp


end BucketMapLemmas

theorem jsWeekKey_eq_int (dt : Date) : jsWeekKey dt = jsWeekKeyInt dt := by
  have key : ∀ a b : Int, (1 : ℤ) + ⌊((a : ℚ) - 3 + (b : ℚ)) / 7 + 1 / 2⌋
      = 1 + (2 * (a - 3 + b) + 7) / 14 := by
    intro a b
    have h2 : ((a : ℚ) - 3 + (b : ℚ)) / 7 + 1 / 2
        = ((2 * (a - 3 + b) + 7 : ℤ) : ℚ) / ((14 : ℕ) : ℚ) := by
      push_cast; ring
    rw [h2, Rat.floor_intCast_div_natCast]
    norm_num
  unfold jsWeekKey jsWeekKeyInt jsRound
  simp only [key]

section ResampleLemmas

variable {κ : Type} [DecidableEq κ] (key : HistoryPoint → κ)

theorem mem_of_mem_lastOfBuckets {l : List HistoryPoint} {p : HistoryPoint}
    (hp : p ∈ lastOfBuckets key l) : p ∈ l := by
  rw [lastOfBuckets, mem_sortBy] at hp
  rcases List.mem_map.mp hp with ⟨e, he, rfl⟩
  exact (mem_buildMap key e he).2

theorem nodup_key_lastOfBuckets (l : List HistoryPoint) :
    ((lastOfBuckets key l).map key).Nodup := by
  have hmapeq : ((buildMap key l).map Prod.snd).map key
      = (buildMap key l).map Prod.fst := by
    rw [List.map_map]
    exact List.map_congr_left (fun e he => (mem_buildMap key e he).1)
  have hperm : List.Perm ((lastOfBuckets key l).map key)
      (((buildMap key l).map Prod.snd).map key) :=
    (sortBy_perm pointLe ((buildMap key l).map Prod.snd)).map key
  rw [List.Perm.nodup_iff hperm, hmapeq]
  exact nodup_fst_buildMap key l

theorem exists_key_lastOfBuckets {l : List HistoryPoint} {q : HistoryPoint}
    (hq : q ∈ l) : ∃ p ∈ lastOfBuckets key l, key p = key q := by
  rcases List.mem_map.mp (fst_mem_buildMap key hq) with ⟨e, he, hke⟩
  refine ⟨e.2, ?_, ?_⟩
  · rw [lastOfBuckets, mem_sortBy]
    exact List.mem_map_of_mem Prod.snd he
  · rw [(mem_buildMap key e he).1, hke]

theorem sorted_lastOfBuckets (l : List HistoryPoint) :
    (lastOfBuckets key l).Pairwise pointLe :=
  pairwise_sortBy pointLe pointLe_total
    (fun _ _ _ hab hbc => dLe_trans hab hbc) _

theorem latest_lastOfBuckets {l : List HistoryPoint}
    (hs : l.Pairwise (fun a b => dLt a.date b.date)) :
    ∀ p ∈ lastOfBuckets key l, ∀ q ∈ l, key q = key p →
      q = p ∨ dLt q.date p.date := by
  intro p hp q hq hkey
  rw [lastOfBuckets, mem_sortBy] at hp
  rcases List.mem_map.mp hp with ⟨e, he, rfl⟩
  exact mem_buildMap_latest key (fun a b => dLt a.date b.date) hs e he q hq
    (hkey.trans (mem_buildMap key e he).1)

theorem lastOfBuckets_idem (l : List HistoryPoint) :
    lastOfBuckets key (lastOfBuckets key l) = lastOfBuckets key l := by
  have hnodup := nodup_key_lastOfBuckets key l
  rw [lastOfBuckets, buildMap_of_nodup_keys key hnodup, List.map_map]
  have hid : (Prod.snd ∘ fun p : HistoryPoint => (key p, p)) = id := rfl
  rw [hid, List.map_id]
  exact sortBy_of_pairwise pointLe (sorted_lastOfBuckets key l)

theorem nodup_lastOfBuckets (l : List HistoryPoint) :
    (lastOfBuckets key l).Nodup :=
  (nodup_key_lastOfBuckets key l).of_map key

theorem strict_sorted_lastOfBuckets {l : List HistoryPoint}
    (hs : l.Pairwise (fun a b => dLt a.date b.date)) :
    (lastOfBuckets key l).Pairwise (fun a b => dLt a.date b.date) := by
  have hne : ∀ a ∈ l, ∀ b ∈ l, a ≠ b → a.date ≠ b.date := by
    have hsym : Symmetric (fun a b : HistoryPoint =>
        a.date ≠ b.date ∨ a = b) := by
      intro a b h
      rcases h with h | rfl
      · exact Or.inl (Ne.symm h)
      · exact Or.inr rfl
    have hpw : l.Pairwise (fun a b : HistoryPoint =>
        a.date ≠ b.date ∨ a = b) :=
      hs.imp (fun h => Or.inl (ne_of_dLt h))
    intro a ha b hb hab
    rcases hpw.forall hsym ha hb hab with h | rfl
    · exact h
    · exact absurd rfl hab
  have hpair := (sorted_lastOfBuckets key l).and
    (List.Pairwise.imp (fun h => h) (nodup_lastOfBuckets key l))
  refine hpair.imp_of_mem ?_
  intro a b ha hb hab
  exact dLt_of_dLe_of_ne hab.1
    (hne a (mem_of_mem_lastOfBuckets key ha) b (mem_of_mem_lastOfBuckets key hb)
      hab.2)

end ResampleLemmas


theorem emaLoop_length (k prev : ℚ) (l : List HistoryPoint) :
    (emaLoop k prev l).length = l.length := by
  induction l generalizing prev with
  | nil => rfl
  | cons p ps ih => simp [emaLoop, ih]

theorem rsiLoop_length (period : ℕ) (avgGain avgLoss prevVal : ℚ)
    (l : List HistoryPoint) :
    (rsiLoop period avgGain avgLoss prevVal l).length = l.length := by
  induction l generalizing avgGain avgLoss prevVal with
  | nil => rfl
  | cons p ps ih => simp [rsiLoop, ih]

theorem sum_const_values (l : List HistoryPoint) (v : ℚ)
    (h : ∀ q ∈ l, q.value = v) :
    (l.map HistoryPoint.value).sum = l.length * v := by
  induction l with
  | nil => simp
  | cons q qs ih =>
    simp only [List.map_cons, List.sum_cons, List.length_cons]
    rw [h q (List.mem_cons_self q qs),
      ih (fun r hr => h r (List.mem_cons_of_mem q hr))]
    push_cast
    ring

theorem emaLoop_const (k v : ℚ) (l : List HistoryPoint)
    (h : ∀ q ∈ l, q.value = v) :
    ∀ r ∈ emaLoop k v l, r.value = v := by
  induction l with
  | nil => simp [emaLoop]
  | cons q qs ih =>
    intro r hr
    simp only [emaLoop, List.mem_cons] at hr
    have hq : q.value = v := h q (List.mem_cons_self q qs)
    rcases hr with rfl | hr
    · simp [hq]
    · have hstep : (q.value - v) * k + v = v := by rw [hq]; ring
      rw [hstep] at hr
      exact ih (fun s hs => h s (List.mem_cons_of_mem q hs)) r hr

theorem sampleConst_ema_eval :
    calculateEMA sampleConst 2 = [⟨⟨2024, 1, 2⟩, 7⟩, ⟨⟨2024, 1, 3⟩, 7⟩] := by
  norm_num [calculateEMA, emaLoop, valAt, dateAt, defaultPoint, sampleConst]

/-
Theorems settling the spec claims.
-/

/-- C1: the spec defines RSI as exactly 100 whenever the trailing average
loss is zero, including the first emitted value at index `period`; but
the source guards `avgLoss === 0` only inside the smoothing loop, so a
flat first window makes the first value `0/0 = NaN` (`none` here), not
100. This evaluates `calculateRSI` at the failing input: period 2 over
three equal closes. -/
theorem calculateRSI_flat_first_window_nan :
    calculateRSI sampleFlat 2 = [⟨⟨2024, 1, 3⟩, none⟩] := by
  norm_num [calculateRSI, firstRsi, rsiLoop, valAt, dateAt, defaultPoint,
    List.range_succ, sampleFlat]

/-- C2 counterexample: 2024-01-01 (ISO week 2024-W01) and 2024-12-30
(ISO week 2025-W01) lie in different ISO weeks, and form a strictly
ascending daily series, yet `resampleToWeekly` keeps only the later
point — both dates get bucket key `"2024-W1"` (calendar year of the
date + week number) — so bucketing is not by ISO calendar week and an
inhabited ISO week loses its representative. -/
theorem resampleToWeekly_not_iso_bucketed :
    isoWeekKey ⟨2024, 1, 1⟩ ≠ isoWeekKey ⟨2024, 12, 30⟩
    ∧ dLt (⟨2024, 1, 1⟩ : Date) ⟨2024, 12, 30⟩
    ∧ resampleToWeekly sampleYearPair = [⟨⟨2024, 12, 30⟩, 2⟩] := by
  refine ⟨by decide, by decide, ?_⟩
  simp only [resampleToWeekly, lastOfBuckets, jsWeekKey_eq_int, sampleYearPair]
  rfl

/-- C2 (amended): `resampleToWeekly` groups by the pair (calendar year of
the date, week number as computed by the source's `getWeek`) — that is,
by `jsWeekKey`, not by ISO week-year plus week number. For a strictly
date-ascending daily series: every output point is an input point that
is date-latest among the input points of its bucket, the output is
strictly date-ascending, no two output points share a bucket key, and
every bucket occurring in the input is represented. -/
theorem resampleToWeekly_calendar_week_buckets (daily : List HistoryPoint)
    (hs : daily.Pairwise (fun a b => dLt a.date b.date)) :
    (∀ p ∈ resampleToWeekly daily, p ∈ daily ∧
        ∀ q ∈ daily, jsWeekKey q.date = jsWeekKey p.date → dLe q.date p.date)
    ∧ (resampleToWeekly daily).Pairwise (fun a b => dLt a.date b.date)
    ∧ (resampleToWeekly daily).Pairwise
        (fun a b => jsWeekKey a.date ≠ jsWeekKey b.date)
    ∧ ∀ q ∈ daily, ∃ p ∈ resampleToWeekly daily,
        jsWeekKey p.date = jsWeekKey q.date := by
  refine ⟨?_, ?_, ?_, ?_⟩
  · intro p hp
    refine ⟨mem_of_mem_lastOfBuckets (fun p => jsWeekKey p.date) hp, ?_⟩
    intro q hq hkey
    rcases latest_lastOfBuckets (fun p => jsWeekKey p.date) hs p hp q hq hkey
      with rfl | hlt
    · exact dLe_refl _
    · exact dLe_of_dLt hlt
  · exact strict_sorted_lastOfBuckets (fun p => jsWeekKey p.date) hs
  · have h := nodup_key_lastOfBuckets (fun p => jsWeekKey p.date) daily
    unfold List.Nodup at h
    exact List.pairwise_map.mp h
  · intro q hq
    exact exists_key_lastOfBuckets (fun p => jsWeekKey p.date) hq

theorem resampleToWeekly_calendar_week_buckets_witness :
    (resampleToWeekly sampleDaily).Pairwise
      (fun a b => jsWeekKey a.date ≠ jsWeekKey b.date) :=
  (resampleToWeekly_calendar_week_buckets sampleDaily (by decide)).2.2.1

/-- C3 counterexample: at period 0 with an empty input series we have
n ≥ p, yet `calculateEMA` returns the empty list instead of an output of
length n − p + 1 = 1, so the stated length law fails at period 0. -/
theorem calculateEMA_period_zero_counterexample :
    (calculateEMA [] 0).length ≠ ([] : List HistoryPoint).length - 0 + 1 := by
  decide

/-- C3 (amended): the indicator length law with the SMA/EMA part
restricted to periods ≥ 1 (at period 0 the source returns `[]` on empty
input, not a length-1 output, and indexes `data[-1]` on nonempty input):
for p ≥ 1, SMA and EMA outputs have length n − p + 1 when n ≥ p and 0
otherwise; the RSI law (n − p when n ≥ p + 1, else 0) holds for every
period. -/
theorem indicator_length_law (data : List HistoryPoint) (p : ℕ) :
    (1 ≤ p →
      (calculateEMA data p).length
          = (if p ≤ data.length then data.length - p + 1 else 0)
      ∧ (calculateSMA data p).length
          = (if p ≤ data.length then data.length - p + 1 else 0))
    ∧ (calculateRSI data p).length
        = (if p + 1 ≤ data.length then data.length - p else 0) := by
  constructor
  · intro hp
    constructor
    · unfold calculateEMA
      by_cases h0 : data.length = 0
      · rw [if_pos h0, if_neg (by omega)]
        rfl
      · rw [if_neg h0]
        by_cases hlt : data.length < p
        · rw [if_pos hlt, if_neg (by omega)]
          rfl
        · rw [if_neg hlt, if_pos (by omega)]
          simp only [List.length_cons, emaLoop_length, List.length_drop]
    · unfold calculateSMA
      by_cases hlt : data.length < p
      · rw [if_pos hlt, if_neg (by omega)]
        rfl
      · rw [if_neg hlt, if_pos (by omega)]
        rw [List.length_map, List.length_range']
        omega
  · unfold calculateRSI
    by_cases hlt : data.length < p + 1
    · rw [if_pos hlt, if_neg (by omega)]
      rfl
    · rw [if_neg hlt, if_pos (by omega)]
      simp only [List.length_cons, rsiLoop_length, List.length_drop]
      omega

theorem indicator_length_law_witness :
    (calculateEMA sampleDaily 2).length = 2
    ∧ (calculateSMA sampleDaily 2).length = 2
    ∧ (calculateRSI sampleDaily 2).length = 1 := by
  have h := indicator_length_law sampleDaily 2
  refine ⟨?_, ?_, ?_⟩
  · rw [(h.1 (by decide)).1]; decide
  · rw [(h.1 (by decide)).2]; decide
  · rw [h.2]; decide

/-- C4: for every combination of indicator inputs and every valuation
ratio, the final leverage score lies in [0, 100]; and whenever the
ratio exceeds 22, the final score is at most 45 and the safety-warning
flag is set. -/
theorem leverageScore_clamp (hasData : Bool) (valEma50d valBreadth : ℚ)
    (valRsiDaily : Option ℚ) (valVix peR : ℚ) :
    0 ≤ (leverageOutcome hasData valEma50d valBreadth valRsiDaily valVix peR).1
    ∧ (leverageOutcome hasData valEma50d valBreadth valRsiDaily valVix peR).1 ≤ 100
    ∧ (22 < peR →
        (leverageOutcome hasData valEma50d valBreadth valRsiDaily valVix peR).1 ≤ 45
        ∧ (leverageOutcome hasData valEma50d valBreadth valRsiDaily valVix peR).2
            = true) := by
  have h0 : 0 ≤ computeRawScore hasData valEma50d valBreadth valRsiDaily valVix := by
    unfold computeRawScore
    split
    · exact le_max_left 0 _
    · exact le_refl 0
  have h100 :
      computeRawScore hasData valEma50d valBreadth valRsiDaily valVix ≤ 100 := by
    unfold computeRawScore
    split
    · exact max_le (by norm_num) (min_le_left _ _)
    · norm_num
  refine ⟨?_, ?_, ?_⟩
  · simp only [leverageOutcome]
    split
    · exact le_min h0 (by norm_num)
    · exact h0
  · simp only [leverageOutcome]
    split
    · exact le_trans (min_le_right _ _) (by norm_num)
    · exact h100
  · intro hpe
    have hw : decide (22 < peR) = true := by simpa using hpe
    simp only [leverageOutcome, hw, if_true]
    exact ⟨min_le_right _ _, trivial⟩

theorem leverageScore_clamp_witness :
    (leverageOutcome true 1 1 (some 50) 15 23).1 ≤ 45
    ∧ (leverageOutcome true 1 1 (some 50) 15 23).2 = true :=
  (leverageScore_clamp true 1 1 (some 50) 15 23).2.2 (by norm_num)

/-- C5 counterexample: `parseFMPHistory` sorts but never deduplicates, so
a payload with two rows on the same date yields two output points sharing
a date — the output is not date-unique and there is no last-write-wins. -/
theorem parseFMPHistory_keeps_duplicate_dates :
    parseFMPHistory (some [⟨⟨2024, 1, 2⟩, 1⟩, ⟨⟨2024, 1, 2⟩, 2⟩])
        = [⟨⟨2024, 1, 2⟩, 1⟩, ⟨⟨2024, 1, 2⟩, 2⟩]
    ∧ (⟨⟨2024, 1, 2⟩, (1 : ℚ)⟩ : HistoryPoint).date
        = (⟨⟨2024, 1, 2⟩, (2 : ℚ)⟩ : HistoryPoint).date :=
  ⟨rfl, rfl⟩

/-- C5 (amended): the series produced by `parseFMPHistory` is sorted
non-decreasing by date; duplicate dates in the raw payload are preserved
(no deduplication), so date-uniqueness is not guaranteed. -/
theorem parseFMPHistory_sorted (raw : Option (List RawItem)) :
    (parseFMPHistory raw).Pairwise pointLe := by
  cases raw with
  | none => simp [parseFMPHistory]
  | some hist =>
    exact pairwise_sortBy pointLe pointLe_total
      (fun _ _ _ hab hbc => dLe_trans hab hbc) _

/-- C6: whenever the cache check misses and the primary SPY history
parses to an empty series (fetch failed or payload empty),
`getMarketHistory` returns null and the stored cache entry is unchanged —
no cache write happens on this failure path. -/
theorem getMarketHistory_primary_failure (env : FmpEnv)
    (hcache : cacheLookup env = none)
    (hspy : parseFMPHistory env.spyFull = []) :
    getMarketHistory env = (none, env.cache) := by
  cases hkey : env.hasApiKey
  · simp [getMarketHistory, hcache, hkey]
  · simp [getMarketHistory, hcache, hkey, hspy]

theorem getMarketHistory_primary_failure_witness :
    getMarketHistory sampleEnvNoData = (none, none) :=
  getMarketHistory_primary_failure sampleEnvNoData rfl rfl

/-- C7: both resamplers are idempotent — resampling an already-resampled
series yields the same series. -/
theorem resample_idempotent (daily : List HistoryPoint) :
    resampleToWeekly (resampleToWeekly daily) = resampleToWeekly daily
    ∧ resampleToMonthly (resampleToMonthly daily) = resampleToMonthly daily :=
  ⟨lastOfBuckets_idem (fun p => jsWeekKey p.date) daily,
   lastOfBuckets_idem (fun p => monthKey p.date) daily⟩

/-- C8: on a constant input series of value `v` with length at least the
period (≥ 1), every output value of `calculateEMA` equals `v`. -/
theorem calculateEMA_constant (data : List HistoryPoint) (p : ℕ) (v : ℚ)
    (hp : 1 ≤ p) (hlen : p ≤ data.length)
    (hconst : ∀ q ∈ data, q.value = v) :
    ∀ r ∈ calculateEMA data p, r.value = v := by
  intro r hr
  unfold calculateEMA at hr
  rw [if_neg (by omega), if_neg (by omega)] at hr
  have hp0 : ((p : ℕ) : ℚ) ≠ 0 := Nat.cast_ne_zero.mpr (by omega)
  have hseed : ((data.take p).map HistoryPoint.value).sum / (p : ℚ) = v := by
    rw [sum_const_values _ v (fun q hq => hconst q (List.mem_of_mem_take hq))]
    rw [List.length_take, min_eq_left hlen]
    exact mul_div_cancel_left₀ v hp0
  simp only [List.mem_cons] at hr
  rcases hr with rfl | hr
  · simpa using hseed
  · rw [hseed] at hr
    exact emaLoop_const _ v _ (fun q hq => hconst q (List.mem_of_mem_drop hq)) r hr

theorem calculateEMA_constant_witness :
    (⟨⟨2024, 1, 3⟩, (7 : ℚ)⟩ : HistoryPoint).value = 7 :=
  calculateEMA_constant sampleConst 2 7 (by norm_num) (by norm_num [sampleConst])
    (by simp [sampleConst]) ⟨⟨2024, 1, 3⟩, 7⟩
    (by rw [sampleConst_ema_eval]; simp)

/-- C9: every point of the weekly and monthly resampled outputs is
literally one of the input daily points (same date and value): resampling
selects existing points and never interpolates. -/
theorem resample_points_subset (daily : List HistoryPoint) (p : HistoryPoint) :
    (p ∈ resampleToWeekly daily → p ∈ daily)
    ∧ (p ∈ resampleToMonthly daily → p ∈ daily) :=
  ⟨fun hp => mem_of_mem_lastOfBuckets (fun q => jsWeekKey q.date) hp,
   fun hp => mem_of_mem_lastOfBuckets (fun q => monthKey q.date) hp⟩

theorem resample_points_subset_witness :
    (⟨⟨2024, 2, 3⟩, (15 : ℚ)⟩ : HistoryPoint) ∈ sampleDaily :=
  (resample_points_subset sampleDaily ⟨⟨2024, 2, 3⟩, 15⟩).2
    (by rw [show resampleToMonthly sampleDaily
          = [⟨⟨2024, 1, 20⟩, 12⟩, ⟨⟨2024, 2, 3⟩, 15⟩] from rfl]
        simp)

/-- C10: when `getMarketHistory` yields no dataset, the dashboard's raw
score is 0 (not the baseline 50), the `peRatio` fallback 23.1 exceeds the
safety threshold 22 so the safety-warning flag is raised with no data,
and the displayed rounded score is exactly 0. -/
theorem dashboard_null_data_state : dashboardScore none = (0, true, 0) := by
  norm_num [dashboardScore, leverageOutcome, computeRawScore, calculateEMA,
    calculateRSI, calculateSMA, diffVsIndicator, getLastVal, getLastRsi, jsRound]

end LeverageApp
